import Mathlib

/-!
Verification of a primitive-recursive-function interpreter.

The program builds first-class natural-number functions from five
generators (zero, successor, projection, composition, primitive
recursion) plus a bounded-minimization search, and evaluates them.
We embed the function-node syntax as an inductive type and the
evaluation semantics (the various `__call__` methods of `prf.py`)
as an exception-returning evaluator, then prove the specified
properties about it.
-/

namespace Prf

/-- Syntax of function values: the five node kinds built by the
construction API (`zero`, `succ`, `proj(i)`, `compose(f, *gs)`,
`prim_rec(base, step)`). `compose` keeps its inner functions as an
ordered list, exactly as `Compose.gs` does. -/
inductive PRF where
  | zero : PRF
  | succ : PRF
  | proj (index : Nat) : PRF
  | compose (f : PRF) (gs : List PRF) : PRF
  | primRec (base step : PRF) : PRF
deriving Repr

/-- Runtime errors the interpreter can raise while evaluating a node.
`typeError` models Python's TypeError, raised when `Zero.__call__`,
`Succ.__call__` or `PrimRec.__call__` receive the wrong number of
positional arguments; `indexError` models the IndexError raised by
`Proj.__call__` when the projection index is out of range.  (The
spec's §7 groups both conditions under the name ArityError.) -/
inductive EvalErr where
  | typeError : EvalErr
  | indexError : EvalErr
deriving Repr, DecidableEq

/-- Binding a successful `Except` computation just applies the
continuation to the carried value. -/
@[simp] theorem ok_bind {ε α β : Type} (a : α) (f : α → Except ε β) :
    (Except.ok a : Except ε α) >>= f = f a := rfl

/-- Binding a failed `Except` computation propagates the error. -/
@[simp] theorem error_bind {ε α β : Type} (e : ε) (f : α → Except ε β) :
    (Except.error e : Except ε α) >>= f = .error e := rfl

mutual

/-- Evaluation of a function node on a tuple of naturals, mirroring the
`__call__` methods of `prf.py` case by case:
* `Zero.__call__(self)` returns 0 (a call with arguments is a TypeError);
* `Succ.__call__(self, n)` returns `n + 1` (any other argument count is a
  TypeError);
* `Proj.__call__(self, *args)` raises IndexError when
  `self.index >= len(args)`, else returns `args[self.index]`;
* `Compose.__call__(self, *args)` returns `self.f()` when `self.gs` is
  empty, else evaluates every inner function on the original `args` and
  passes the list of results to `self.f`;
* `PrimRec.__call__(self, n, *xs)` starts from `acc = self.base(*xs)` and
  runs `acc = self.step(k, acc, *xs)` for `k in range(n)`. -/
def evalPRF : PRF → List Nat → Except EvalErr Nat
  | .zero, [] => .ok 0
  | .zero, _ :: _ => .error .typeError
  | .succ, [n] => .ok (n + 1)
  | .succ, _ => .error .typeError
  | .proj i, args =>
      if h : i < args.length then .ok (args.get ⟨i, h⟩) else .error .indexError
  | .compose f gs, args =>
      if gs.isEmpty then evalPRF f []
      else do
        let rs ← evalArgs gs args
        evalPRF f rs
  | .primRec _ _, [] => .error .typeError
  | .primRec b s, n :: xs => do
      let acc ← evalPRF b xs
      primRecLoop s xs acc (List.range n)
termination_by e _ => (sizeOf e, 0)

/-- Sequential evaluation of the inner functions of a `Compose` node on
the shared original argument tuple: the list comprehension
`[g(*args) for g in self.gs]`, stopping at the first error. -/
def evalArgs : List PRF → List Nat → Except EvalErr (List Nat)
  | [], _ => .ok []
  | g :: gs, args => do
      let v ← evalPRF g args
      let vs ← evalArgs gs args
      .ok (v :: vs)
termination_by gs _ => (sizeOf gs, 0)

/-- The iterative accumulation loop of `PrimRec.__call__`:
`for k in range(n): acc = self.step(k, acc, *xs)`, presented as a fold
over the (ascending) list of loop indices. -/
def primRecLoop (s : PRF) (xs : List Nat) (acc : Nat) : List Nat → Except EvalErr Nat
  | [] => .ok acc
  | k :: ks => do
      let acc2 ← evalPRF s (k :: acc :: xs)
      primRecLoop s xs acc2 ks
termination_by ks => (sizeOf s, 1 + ks.length)

end

/-- The mathematically defined primitive-recursion result, written
exactly as the spec's recursion equations state it:
`h(0, xs) = base(xs)` and `h(k+1, xs) = step(k, h(k, xs), xs)`,
lifted to the exception monad so that a failing base or step
propagates its error.  This definition follows the spec's words and
is compared below with the interpreter's iterative loop. -/
def hSpec (b s : PRF) : Nat → List Nat → Except EvalErr Nat
  | 0, xs => evalPRF b xs
  | k + 1, xs => do
      let prev ← hSpec b s k xs
      evalPRF s (k :: prev :: xs)

/-- Running the accumulation loop over a concatenation of index lists
is running it over the first part and continuing from the result. -/
theorem primRecLoop_append (s : PRF) (xs : List Nat) (l₁ l₂ : List Nat) :
    ∀ acc, primRecLoop s xs acc (l₁ ++ l₂) =
      (primRecLoop s xs acc l₁) >>= fun a => primRecLoop s xs a l₂ := by
  induction l₁ with
  | nil => intro acc; simp [primRecLoop]
  | cons k ks ih =>
      intro acc
      rw [List.cons_append, primRecLoop, primRecLoop]
      cases evalPRF s (k :: acc :: xs) with
      | error e => simp
      | ok a2 => simp [ih a2]

/-- The iterative accumulation of `PrimRec.__call__` computes exactly
the primitive-recursion equations. -/
theorem evalPRF_primRec (b s : PRF) (n : Nat) (xs : List Nat) :
    evalPRF (.primRec b s) (n :: xs) = hSpec b s n xs := by
  induction n with
  | zero =>
      rw [evalPRF, hSpec]
      cases evalPRF b xs with
      | error e => simp
      | ok a => simp [primRecLoop]
  | succ n ih =>
      rw [evalPRF] at ih ⊢
      rw [hSpec, ← ih, List.range_succ]
      cases evalPRF b xs with
      | error e => simp
      | ok a =>
          rw [ok_bind, ok_bind, primRecLoop_append]
          cases primRecLoop s xs a (List.range n) with
          | error e => simp
          | ok a2 =>
              rw [ok_bind, ok_bind, primRecLoop]
              cases evalPRF s (n :: a2 :: xs) with
              | error e => simp
              | ok a3 => simp [primRecLoop]

/-- The scanning loop of `BoundedMin.__call__` over a list of candidate
indices: `for k in ...: if p(k) == 1: return k`, reporting the first
index whose predicate value equals 1 (`some k`), or `none` when the
list is exhausted.  The predicate is an arbitrary callable that
returns a Python integer and may itself raise; a raised error aborts
the scan. -/
def bminScan (p : Nat → Except EvalErr Int) : List Nat → Except EvalErr (Option Nat)
  | [] => .ok none
  | k :: ks => do
      let v ← p k
      if v = 1 then .ok (some k) else bminScan p ks

/-- Bounded minimization, `BoundedMin.__call__(self, p, n)`:
`for k in range(n): if p(k) == 1: return k` and `return n` after the
loop. -/
def bmin (p : Nat → Except EvalErr Int) (n : Nat) : Except EvalErr Nat := do
  let r ← bminScan p (List.range n)
  match r with
  | some k => .ok k
  | none => .ok n

/-- Scanning a concatenation scans the first part and, only when that
finds nothing, continues with the second part. -/
theorem bminScan_append (p : Nat → Except EvalErr Int) (l₁ l₂ : List Nat) :
    bminScan p (l₁ ++ l₂) =
      (do
        let r ← bminScan p l₁
        match r with
        | some k => .ok (some k)
        | none => bminScan p l₂) := by
  induction l₁ with
  | nil => simp [bminScan]
  | cons k ks ih =>
      rw [List.cons_append, bminScan, bminScan]
      cases p k with
      | error e => simp
      | ok v =>
          rw [ok_bind, ok_bind]
          by_cases hv : v = 1
          · simp [hv]
          · simp [hv, ih]

/-- Characterization of the scan over `range n` for a predicate that
returns normally below the bound: either no index below `n` has value
1 and the scan reports `none`, or the scan reports exactly the least
index with value 1. -/
theorem bminScan_range_spec (p : Nat → Except EvalErr Int) (q : Nat → Int) (n : Nat)
    (hp : ∀ k, k < n → p k = .ok (q k)) :
    (bminScan p (List.range n) = .ok none ∧ ∀ k, k < n → q k ≠ 1)
    ∨ (∃ m, bminScan p (List.range n) = .ok (some m) ∧ m < n ∧ q m = 1 ∧
        ∀ j, j < m → q j ≠ 1) := by
  induction n with
  | zero =>
      left
      refine ⟨by simp [bminScan], ?_⟩
      intro k hk
      omega
  | succ n ih =>
      have hp' : ∀ k, k < n → p k = .ok (q k) := fun k hk => hp k (by omega)
      rcases ih hp' with ⟨hnone, hq⟩ | ⟨m, hm, hlt, hqm, hmin⟩
      · have hpn : p n = .ok (q n) := hp n (by omega)
        by_cases hqn : q n = 1
        · right
          refine ⟨n, ?_, by omega, hqn, fun j hj => hq j hj⟩
          rw [List.range_succ, bminScan_append, hnone, ok_bind]
          simp [bminScan, hpn, hqn]
        · left
          constructor
          · rw [List.range_succ, bminScan_append, hnone, ok_bind]
            simp [bminScan, hpn, hqn]
          · intro k hk
            by_cases hkn : k < n
            · exact hq k hkn
            · have : k = n := by omega
              rw [this]
              exact hqn
      · right
        refine ⟨m, ?_, by omega, hqm, hmin⟩
        rw [List.range_succ, bminScan_append, hm, ok_bind]

/-- When some index below the bound is the least one with predicate
value 1, `bmin` returns it. -/
theorem bmin_found (p : Nat → Except EvalErr Int) (q : Nat → Int) (n m : Nat)
    (hp : ∀ k, k < n → p k = .ok (q k)) (hm : m < n) (hq1 : q m = 1)
    (hmin : ∀ j, j < m → q j ≠ 1) : bmin p n = .ok m := by
  rcases bminScan_range_spec p q n hp with ⟨hnone, hq⟩ | ⟨m', hm', hlt', hq', hmin'⟩
  · exact absurd hq1 (hq m hm)
  · have hmm : m' = m := by
      by_contra hne
      rcases Nat.lt_or_ge m' m with h | h
      · exact hmin m' h hq'
      · have hlt2 : m < m' := by omega
        exact hmin' m hlt2 hq1
    rw [bmin, hm', hmm, ok_bind]

/-- When no index below the bound has predicate value 1, `bmin`
returns the bound itself. -/
theorem bmin_no_match (p : Nat → Except EvalErr Int) (q : Nat → Int) (n : Nat)
    (hp : ∀ k, k < n → p k = .ok (q k)) (hq : ∀ k, k < n → q k ≠ 1) :
    bmin p n = .ok n := by
  rcases bminScan_range_spec p q n hp with ⟨hnone, _⟩ | ⟨m, _, hlt, hqm, _⟩
  · rw [bmin, hnone, ok_bind]
  · exact absurd hqm (hq m hlt)

/-- Addition, `add = prim_rec(proj(0), compose(succ, proj(1)))`. -/
def add : PRF := .primRec (.proj 0) (.compose .succ [.proj 1])

/-- Multiplication,
`mult = prim_rec(compose(zero), compose(add, proj(1), proj(2)))`. -/
def mult : PRF := .primRec (.compose .zero []) (.compose add [.proj 1, .proj 2])

/-- Predecessor, `pred = prim_rec(zero, proj(0))`. -/
def pred : PRF := .primRec .zero (.proj 0)

/-- The helper `_monus_helper = prim_rec(proj(0), compose(pred, proj(1)))`,
so that `_monus_helper(b, a) = max(0, a - b)`. -/
def monusHelper : PRF := .primRec (.proj 0) (.compose pred [.proj 1])

/-- Truncated subtraction, `Monus.__call__(self, a, b)`: it evaluates
`_monus_helper(b, a)`. -/
def monus (a b : Nat) : Except EvalErr Nat := evalPRF monusHelper [b, a]

/-- Triangular numbers,
`tri = prim_rec(zero, compose(add, proj(1), compose(succ, proj(0))))`. -/
def tri : PRF := .primRec .zero (.compose add [.proj 1, .compose .succ [.proj 0]])

/-- Cantor pairing, `pair = compose(add, compose(tri, add), proj(1))`. -/
def pair : PRF := .compose add [.compose tri [add], .proj 1]

/-- The n-th triangular number `0 + 1 + ... + n`, the mathematical value
computed by the `tri` node. -/
def triN : Nat → Nat
  | 0 => 0
  | n + 1 => triN n + (n + 1)

theorem eval_add (a b : Nat) : evalPRF add [a, b] = .ok (a + b) := by
  rw [add, evalPRF_primRec]
  induction a with
  | zero => simp [hSpec, evalPRF]
  | succ a ih =>
      rw [hSpec, ih, ok_bind]
      simp [evalPRF, evalArgs]
      omega

theorem eval_mult (a b : Nat) : evalPRF mult [a, b] = .ok (a * b) := by
  rw [mult, evalPRF_primRec]
  induction a with
  | zero => simp [hSpec, evalPRF]
  | succ a ih =>
      rw [hSpec, ih, ok_bind]
      simp [evalPRF, evalArgs, eval_add]
      ring

theorem eval_pred (n : Nat) : evalPRF pred [n] = .ok (n - 1) := by
  rw [pred, evalPRF_primRec]
  induction n with
  | zero => simp [hSpec, evalPRF]
  | succ n ih =>
      rw [hSpec, ih, ok_bind]
      simp [evalPRF]

theorem eval_monusHelper (b a : Nat) : evalPRF monusHelper [b, a] = .ok (a - b) := by
  rw [monusHelper, evalPRF_primRec]
  induction b with
  | zero => simp [hSpec, evalPRF]
  | succ b ih =>
      rw [hSpec, ih, ok_bind]
      simp [evalPRF, evalArgs, eval_pred]
      omega

theorem monus_eq (a b : Nat) : monus a b = .ok (a - b) := eval_monusHelper b a

theorem eval_tri (n : Nat) : evalPRF tri [n] = .ok (triN n) := by
  rw [tri, evalPRF_primRec]
  induction n with
  | zero => simp [hSpec, evalPRF, triN]
  | succ n ih =>
      rw [hSpec, ih, ok_bind]
      simp [evalPRF, evalArgs, eval_add, triN]

theorem eval_pair (a b : Nat) : evalPRF pair [a, b] = .ok (triN (a + b) + b) := by
  rw [pair, evalPRF]
  simp only [List.isEmpty_cons, Bool.false_eq_true, if_false]
  simp [evalArgs, evalPRF, eval_add, eval_tri]

theorem le_triN (n : Nat) : n ≤ triN n := by
  induction n with
  | zero => simp [triN]
  | succ n ih => rw [triN]; omega

theorem triN_mono {m n : Nat} (h : m ≤ n) : triN m ≤ triN n := by
  induction n with
  | zero =>
      have hm : m = 0 := by omega
      rw [hm]
  | succ n ih =>
      rcases Nat.lt_or_ge m (n + 1) with h2 | h2
      · have : triN m ≤ triN n := ih (by omega)
        rw [triN]
        omega
      · have hm : m = n + 1 := by omega
        rw [hm]

/-- The row finder `CantorW.__call__(self, p)`: it searches with
`bmin(exceeds, succ(p))` for the smallest `w` where
`tri(succ(w)) > p`, using the lambda
`exceeds = lambda w: 1 if tri(succ(w)) > p else 0` (the calls
`succ(w)` and `succ(p)` evaluate the successor node, giving `w + 1`
and `p + 1`). -/
def cantorW (p : Nat) : Except EvalErr Nat :=
  bmin (fun w => do
      let t ← evalPRF tri [w + 1]
      .ok (if p < t then (1 : Int) else 0))
    (p + 1)

/-- The second Cantor projection `Snd.__call__(self, p)`:
`w = _cantor_w(p)` followed by `monus(p, tri(w))`. -/
def snd (p : Nat) : Except EvalErr Nat := do
  let w ← cantorW p
  let t ← evalPRF tri [w]
  monus p t

/-- The first Cantor projection `Fst.__call__(self, p)`:
`w = _cantor_w(p)` followed by `monus(w, snd(p))`. -/
def fst (p : Nat) : Except EvalErr Nat := do
  let w ← cantorW p
  let s ← snd p
  monus w s

theorem cantorW_pair (a b : Nat) : cantorW (triN (a + b) + b) = .ok (a + b) := by
  have hab : a + b ≤ triN (a + b) := le_triN (a + b)
  apply bmin_found _
    (fun w => if triN (a + b) + b < triN (w + 1) then (1 : Int) else 0)
  · intro k hk
    simp [eval_tri]
  · omega
  · have : triN (a + b) + b < triN (a + b + 1) := by rw [triN]; omega
    simp [this]
  · intro j hj
    have : triN (j + 1) ≤ triN (a + b) := triN_mono (by omega)
    have hno : ¬ (triN (a + b) + b < triN (j + 1)) := by omega
    simp [hno]

theorem snd_pair (a b : Nat) : snd (triN (a + b) + b) = .ok b := by
  rw [snd, cantorW_pair, ok_bind, eval_tri, ok_bind, monus_eq]
  simp

theorem fst_pair (a b : Nat) : fst (triN (a + b) + b) = .ok a := by
  rw [fst, cantorW_pair, ok_bind, snd_pair, ok_bind, monus_eq]
  simp

/-- Python's `range(n)` for a possibly negative integer `n`: the
ascending list `0, 1, ..., n - 1`, empty when `n ≤ 0`. -/
def intRange (n : Int) : List Int := (List.range n.toNat).map (fun k => (k : Int))

mutual

/-- The same evaluator as `evalPRF`, on Python's actual value domain of
arbitrary (possibly negative) integers.  `prf.py` performs no sign
check anywhere, so a caller may pass a negative number; every case
mirrors the same `__call__` method as in `evalPRF`, and the
`PrimRec.__call__` loop `for k in range(n)` runs over `intRange n`. -/
def evalI : PRF → List Int → Except EvalErr Int
  | .zero, [] => .ok 0
  | .zero, _ :: _ => .error .typeError
  | .succ, [n] => .ok (n + 1)
  | .succ, _ => .error .typeError
  | .proj i, args =>
      if h : i < args.length then .ok (args.get ⟨i, h⟩) else .error .indexError
  | .compose f gs, args =>
      if gs.isEmpty then evalI f []
      else do
        let rs ← evalArgsI gs args
        evalI f rs
  | .primRec _ _, [] => .error .typeError
  | .primRec b s, n :: xs => do
      let acc ← evalI b xs
      primRecLoopI s xs acc (intRange n)
termination_by e _ => (sizeOf e, 0)

/-- Integer-domain version of `evalArgs`. -/
def evalArgsI : List PRF → List Int → Except EvalErr (List Int)
  | [], _ => .ok []
  | g :: gs, args => do
      let v ← evalI g args
      let vs ← evalArgsI gs args
      .ok (v :: vs)
termination_by gs _ => (sizeOf gs, 0)

/-- Integer-domain version of `primRecLoop`. -/
def primRecLoopI (s : PRF) (xs : List Int) (acc : Int) :
    List Int → Except EvalErr Int
  | [] => .ok acc
  | k :: ks => do
      let acc2 ← evalI s (k :: acc :: xs)
      primRecLoopI s xs acc2 ks
termination_by ks => (sizeOf s, 1 + ks.length)

end

/-- With a negative recursion argument the loop index list is empty. -/
theorem intRange_neg {n : Int} (h : n < 0) : intRange n = [] := by
  rw [intRange]
  have : n.toNat = 0 := by omega
  rw [this]
  simp

mutual

/-- The maximal call-stack depth (number of nested `__call__` frames)
reached while evaluating a node, mirroring the call structure of
`evalPRF`: a generator leaf uses one frame; `Compose.__call__` uses its
own frame plus the deepest of the inner-function calls and (when they
all succeed) the outer call on their results; `PrimRec.__call__` uses
its own frame plus the deepest of the base call and the successive
step calls, each step receiving the accumulator produced so far. -/
def evalDepth : PRF → List Nat → Nat
  | .zero, _ => 1
  | .succ, _ => 1
  | .proj _, _ => 1
  | .compose f gs, args =>
      if gs.isEmpty then 1 + evalDepth f []
      else
        match evalArgs gs args with
        | .ok rs => 1 + max (depthList gs args) (evalDepth f rs)
        | .error _ => 1 + depthList gs args
  | .primRec _ _, [] => 1
  | .primRec b s, n :: xs =>
      match evalPRF b xs with
      | .ok acc => 1 + max (evalDepth b xs) (loopDepth s xs acc (List.range n))
      | .error _ => 1 + evalDepth b xs
termination_by e _ => (sizeOf e, 0)

/-- Depth reached by the sequential inner-function calls of a
`Compose` node (the list comprehension stops at the first error). -/
def depthList : List PRF → List Nat → Nat
  | [], _ => 0
  | g :: gs, args =>
      match evalPRF g args with
      | .ok _ => max (evalDepth g args) (depthList gs args)
      | .error _ => evalDepth g args
termination_by gs _ => (sizeOf gs, 0)

/-- Depth reached by the successive step calls of the `PrimRec` loop
(the loop stops at the first error). -/
def loopDepth (s : PRF) (xs : List Nat) (acc : Nat) : List Nat → Nat
  | [] => 0
  | k :: ks =>
      match evalPRF s (k :: acc :: xs) with
      | .ok acc2 => max (evalDepth s (k :: acc :: xs)) (loopDepth s xs acc2 ks)
      | .error _ => evalDepth s (k :: acc :: xs)
termination_by ks => (sizeOf s, 1 + ks.length)

end

mutual

/-- The static height of a node tree: the depth bound implied by the
structure of the tree alone, independent of any argument. -/
def height : PRF → Nat
  | .zero => 1
  | .succ => 1
  | .proj _ => 1
  | .compose f gs => 1 + max (height f) (heightList gs)
  | .primRec b s => 1 + max (height b) (height s)
termination_by e => sizeOf e

/-- Maximal height among a list of nodes. -/
def heightList : List PRF → Nat
  | [] => 0
  | g :: gs => max (height g) (heightList gs)
termination_by gs => sizeOf gs

end

theorem depthList_le (gs : List PRF)
    (h : ∀ g ∈ gs, ∀ args, evalDepth g args ≤ height g) :
    ∀ args, depthList gs args ≤ heightList gs := by
  induction gs with
  | nil => intro args; simp [depthList]
  | cons g gs ih =>
      intro args
      have hg := h g (by simp) args
      have hrest := ih (fun g2 hg2 a => h g2 (by simp [hg2]) a) args
      rw [depthList, heightList]
      cases evalPRF g args with
      | ok v =>
          have h1 := le_max_left (height g) (heightList gs)
          have h2 := le_max_right (height g) (heightList gs)
          simp only []
          omega
      | error e =>
          have h1 := le_max_left (height g) (heightList gs)
          simp only []
          omega

theorem loopDepth_le (s : PRF) (xs : List Nat)
    (h : ∀ args, evalDepth s args ≤ height s) :
    ∀ ks acc, loopDepth s xs acc ks ≤ height s := by
  intro ks
  induction ks with
  | nil => intro acc; simp [loopDepth]
  | cons k ks ih =>
      intro acc
      have hs := h (k :: acc :: xs)
      rw [loopDepth]
      cases evalPRF s (k :: acc :: xs) with
      | ok acc2 =>
          have := ih acc2
          simp only []
          omega
      | error e =>
          simp only []
          omega

theorem evalDepth_le_height_aux (N : Nat) :
    ∀ e : PRF, sizeOf e ≤ N → ∀ args, evalDepth e args ≤ height e := by
  induction N with
  | zero =>
      intro e he args
      exfalso
      cases e <;> simp at he
  | succ N ih =>
      intro e he args
      match e with
      | .zero => simp [evalDepth, height]
      | .succ => simp [evalDepth, height]
      | .proj i => simp [evalDepth, height]
      | .compose f gs =>
          have hsz : 1 + sizeOf f + sizeOf gs ≤ N + 1 := by
            have := he
            simp at this
            omega
          have hf : ∀ a, evalDepth f a ≤ height f :=
            fun a => ih f (by omega) a
          have hgs : ∀ g ∈ gs, ∀ a, evalDepth g a ≤ height g := by
            intro g hg a
            have := List.sizeOf_lt_of_mem hg
            exact ih g (by omega) a
          have hdl := depthList_le gs hgs args
          have h1 := le_max_left (height f) (heightList gs)
          have h2 := le_max_right (height f) (heightList gs)
          rw [evalDepth, height]
          by_cases hemp : gs.isEmpty
          · rw [if_pos hemp]
            have := hf []
            omega
          · rw [if_neg hemp]
            cases evalArgs gs args with
            | ok rs =>
                have := hf rs
                simp only []
                omega
            | error e2 =>
                simp only []
                omega
      | .primRec b s =>
          have hsz : 1 + sizeOf b + sizeOf s ≤ N + 1 := by
            have := he
            simp at this
            omega
          have hb : ∀ a, evalDepth b a ≤ height b := fun a => ih b (by omega) a
          have hs : ∀ a, evalDepth s a ≤ height s := fun a => ih s (by omega) a
          have h1 := le_max_left (height b) (height s)
          have h2 := le_max_right (height b) (height s)
          match args with
          | [] => simp [evalDepth, height]
          | n :: xs =>
              have hl := loopDepth_le s xs hs
              rw [evalDepth, height]
              cases evalPRF b xs with
              | ok acc =>
                  have := hb xs
                  have := hl (List.range n) acc
                  simp only []
                  omega
              | error e2 =>
                  have := hb xs
                  simp only []
                  omega

/-- Evaluating any node reaches a call-stack depth bounded by the
static height of its tree, whatever arguments it is applied to. -/
theorem evalDepth_le_height (e : PRF) (args : List Nat) :
    evalDepth e args ≤ height e :=
  evalDepth_le_height_aux (sizeOf e) e le_rfl args

/-- Pointwise successful evaluation of the inner functions yields the
corresponding list of results. -/
theorem evalArgs_of_pointwise (gs : List PRF) (args : List Nat) :
    ∀ vs : List Nat, vs.length = gs.length →
    (∀ i, (h : i < gs.length) →
      evalPRF (gs.get ⟨i, h⟩) args = .ok (vs.getD i 0)) →
    evalArgs gs args = .ok vs := by
  induction gs with
  | nil =>
      intro vs hlen hv
      cases vs with
      | nil => simp [evalArgs]
      | cons v vs => simp at hlen
  | cons g gs ih =>
      intro vs hlen hv
      cases vs with
      | nil => simp at hlen
      | cons v vs =>
          have h0 : evalPRF g args = .ok v := by simpa using hv 0 (by simp)
          have hlen2 : vs.length = gs.length := by simpa using hlen
          have hrest : evalArgs gs args = .ok vs := by
            refine ih vs hlen2 (fun i hi => ?_)
            simpa using hv (i + 1) (by simpa using hi)
          rw [evalArgs, h0, ok_bind, hrest, ok_bind]

/-- C1: applying a `PrimRec` node to a recursion argument `n` and a
tuple of fixed arguments `xs` returns exactly the value of the
recursion equations `h(0, xs) = base(xs)` and
`h(k+1, xs) = step(k, h(k, xs), xs)`: the iterative accumulation of
`PrimRec.__call__` produces the mathematically defined
primitive-recursion result (including the propagation of any error
the base or step function raises). -/
theorem claim1_primRec_correct (f g : PRF) (n : Nat) (xs : List Nat) :
    evalPRF (.primRec f g) (n :: xs) = hSpec f g n xs :=
  evalPRF_primRec f g n xs

/-- C2: for a predicate that returns normally below the bound `n`,
`bmin` returns the least `k` in `[0, n)` whose value is 1 — any `m`
below the bound whose value is 1 and below which no index has value 1
is the returned result — and returns `n` itself when no index below
`n` has value 1, so the ascending scan always reports the smallest
satisfying index. -/
theorem claim2_bmin_least (p : Nat → Except EvalErr Int) (q : Nat → Int) (n : Nat)
    (hp : ∀ k, k < n → p k = .ok (q k)) :
    (∀ m, m < n → q m = 1 → (∀ j, j < m → q j ≠ 1) → bmin p n = .ok m)
    ∧ ((∀ k, k < n → q k ≠ 1) → bmin p n = .ok n) :=
  ⟨fun m hm hq1 hmin => bmin_found p q n m hp hm hq1 hmin,
   fun hq => bmin_no_match p q n hp hq⟩

/-- Witness for C2: a predicate true exactly at 5 gives 5 under bound
10, and gives the bound 3 when searched only below 3. -/
theorem claim2_bmin_least_witness :
    bmin (fun k => .ok (if k = 5 then (1 : Int) else 0)) 10 = .ok 5 ∧
    bmin (fun k => .ok (if k = 5 then (1 : Int) else 0)) 3 = .ok 3 :=
  ⟨(claim2_bmin_least _ (fun k => if k = 5 then 1 else 0) 10 (fun _ _ => rfl)).1 5
      (by decide) (by decide) (by decide),
   (claim2_bmin_least _ (fun k => if k = 5 then 1 else 0) 3 (fun _ _ => rfl)).2
      (by decide)⟩

/-- C3: when `Compose` has at least one inner function, it applies the
outer function to the list of the inner functions' results, each inner
function receiving the identical original argument tuple; when it has
no inner function it calls the outer function on the empty tuple,
ignoring whatever arguments were supplied. -/
theorem claim3_compose (f : PRF) (gs : List PRF) (args vs : List Nat)
    (hlen : vs.length = gs.length)
    (hv : ∀ i, (h : i < gs.length) →
      evalPRF (gs.get ⟨i, h⟩) args = .ok (vs.getD i 0)) :
    (gs ≠ [] → evalPRF (.compose f gs) args = evalPRF f vs)
    ∧ (gs = [] → evalPRF (.compose f gs) args = evalPRF f []) := by
  constructor
  · intro hne
    rw [evalPRF, if_neg (by simpa using hne),
      evalArgs_of_pointwise gs args vs hlen hv, ok_bind]
  · intro hemp
    subst hemp
    simp [evalPRF]

/-- Witness for C3: `compose(succ, proj(0))` applied to `(4,)` feeds
the projection's result 4 to the successor, and a nullary composition
of `zero` ignores its arguments. -/
theorem claim3_compose_witness :
    evalPRF (.compose .succ [.proj 0]) [4] = evalPRF .succ [4] ∧
    evalPRF (.compose .zero []) [7, 8] = evalPRF .zero [] := by
  constructor
  · refine (claim3_compose .succ [.proj 0] [4] [4] rfl ?_).1 (by simp)
    intro i h
    have hi : i = 0 := by simpa using h
    subst hi
    simp [evalPRF]
  · refine (claim3_compose .zero [] [7, 8] [] rfl ?_).2 rfl
    intro i h
    simp at h

/-- C4 is stated of the code as "a negative recursion argument fails
with a DomainError"; this closed counterexample refutes it: on the
integer domain, applying the node `prim_rec(zero, proj(0))` (the
library's `pred`) to the negative recursion argument -1 returns the
value 0 — no error of any kind is raised. -/
theorem claim4_counterexample :
    evalI (.primRec .zero (.proj 0)) [(-1 : Int)] = .ok 0 := by
  rw [evalI, intRange_neg (by decide)]
  simp [evalI, primRecLoopI]

/-- C4 (amended): `PrimRec.__call__` performs no sign check; a negative
recursion argument makes `range(n)` empty, so the node simply returns
the base value, exactly as it does for `n = 0`, and no error is
raised. -/
theorem claim4_negative_primRec (b s : PRF) (n : Int) (xs : List Int)
    (h : n < 0) :
    evalI (.primRec b s) (n :: xs) = evalI b xs := by
  rw [evalI, intRange_neg h]
  cases evalI b xs with
  | ok a => simp [primRecLoopI]
  | error e => simp

/-- Witness for the amended C4: `pred` at recursion argument -2
returns its base value `zero()`. -/
theorem claim4_negative_primRec_witness :
    evalI (.primRec .zero (.proj 0)) [(-2 : Int)] = evalI .zero [] :=
  claim4_negative_primRec .zero (.proj 0) (-2) [] (by decide)

/-- C5 is stated of the code as "a predicate value other than 0 or 1
makes the evaluation fail with a DomainError rather than return a
number"; this closed counterexample refutes it: the constant
predicate 2 under bound 3 makes `bmin` return the number 3, and no
error is raised. -/
theorem claim5_counterexample :
    bmin (fun _ => .ok (2 : Int)) 3 = .ok 3 := rfl

/-- C5 (amended): `BoundedMin.__call__` never checks that the
predicate is boolean-valued: any returned value different from 1 is
simply treated as a non-match, so for every predicate that returns
normally below the bound the search succeeds with a number — the
least index whose value is exactly 1, or the bound itself. -/
theorem claim5_nonboolean_predicate (p : Nat → Except EvalErr Int)
    (q : Nat → Int) (n : Nat) (hp : ∀ k, k < n → p k = .ok (q k)) :
    ∃ r, bmin p n = .ok r ∧
      ((r < n ∧ q r = 1 ∧ ∀ j, j < r → q j ≠ 1)
       ∨ (r = n ∧ ∀ k, k < n → q k ≠ 1)) := by
  rcases bminScan_range_spec p q n hp with ⟨hnone, hq⟩ | ⟨m, hm, hlt, hqm, hmin⟩
  · exact ⟨n, by rw [bmin, hnone, ok_bind], Or.inr ⟨rfl, hq⟩⟩
  · exact ⟨m, by rw [bmin, hm, ok_bind], Or.inl ⟨hlt, hqm, hmin⟩⟩

/-- Witness for the amended C5: a predicate taking the non-boolean
value 7 at index 1 still lets the scan continue and find the 1 at
index 2. -/
theorem claim5_nonboolean_predicate_witness :
    ∃ r, bmin (fun k => .ok (if k = 1 then (7 : Int) else if k = 2 then 1 else 0))
        5 = .ok r ∧
      ((r < 5 ∧ (if r = 1 then (7 : Int) else if r = 2 then 1 else 0) = 1 ∧
          ∀ j, j < r → (if j = 1 then (7 : Int) else if j = 2 then 1 else 0) ≠ 1)
       ∨ (r = 5 ∧ ∀ k, k < 5 →
          (if k = 1 then (7 : Int) else if k = 2 then 1 else 0) ≠ 1)) :=
  claim5_nonboolean_predicate _
    (fun k => if k = 1 then 7 else if k = 2 then 1 else 0) 5 (fun _ _ => rfl)

/-- C6: a projection node applied to at least `index + 1` arguments
returns the argument at position `index` (0-indexed), and applied to
`index` or fewer arguments fails with the out-of-range error (the
IndexError that the spec's taxonomy calls ArityError). -/
theorem claim6_proj (i : Nat) (args : List Nat) :
    (∀ h : i < args.length, evalPRF (.proj i) args = .ok (args.get ⟨i, h⟩))
    ∧ (args.length ≤ i → evalPRF (.proj i) args = .error .indexError) := by
  constructor
  · intro h
    rw [evalPRF, dif_pos h]
  · intro h
    rw [evalPRF, dif_neg (by omega)]

/-- Witness for C6: `proj(1)` on `(10, 20)` returns 20, and `proj(2)`
on the same two arguments fails. -/
theorem claim6_proj_witness :
    evalPRF (.proj 1) [10, 20] = .ok 20 ∧
    evalPRF (.proj 2) [10, 20] = .error .indexError :=
  ⟨(claim6_proj 1 [10, 20]).1 (by decide), (claim6_proj 2 [10, 20]).2 (by decide)⟩

/-- C7: evaluating a `PrimRec` node reaches a call-stack depth bounded
by the static height of the node's tree — a bound that does not
mention the recursion argument `n` (nor any argument) at all, so the
consumed stack depth is O(1) with respect to `n`: the computation is
an iterative accumulation, not call-stack recursion keyed on `n`. -/
theorem claim7_stack_depth (b s : PRF) (n : Nat) (xs : List Nat) :
    evalDepth (.primRec b s) (n :: xs) ≤ height (.primRec b s) :=
  evalDepth_le_height (.primRec b s) (n :: xs)

/-- C8: the Cantor pairing round-trips — for `a, b` below 20,
decoding `pair(a, b)` with `fst` and `snd` recovers exactly `a` and
`b` — and the pairing is injective on that range: any pair below 20
that encodes to the same value is the same pair. -/
theorem claim8_cantor_roundtrip (a b : Nat) (ha : a < 20) (hb : b < 20) :
    ∃ p, evalPRF pair [a, b] = .ok p ∧ fst p = .ok a ∧ snd p = .ok b ∧
      ∀ a2 b2, a2 < 20 → b2 < 20 → evalPRF pair [a2, b2] = .ok p →
        a2 = a ∧ b2 = b := by
  refine ⟨triN (a + b) + b, eval_pair a b, fst_pair a b, snd_pair a b, ?_⟩
  intro a2 b2 _ _ hp
  rw [eval_pair] at hp
  have hpv : triN (a2 + b2) + b2 = triN (a + b) + b := by
    simpa using hp
  have hf2 : fst (triN (a2 + b2) + b2) = .ok a2 := fst_pair a2 b2
  have hs2 : snd (triN (a2 + b2) + b2) = .ok b2 := snd_pair a2 b2
  rw [hpv, fst_pair a b] at hf2
  rw [hpv, snd_pair a b] at hs2
  constructor
  · simpa using hf2.symm
  · simpa using hs2.symm

/-- Witness for C8 at the concrete pair (1, 2). -/
theorem claim8_cantor_roundtrip_witness :
    ∃ p, evalPRF pair [1, 2] = .ok p ∧ fst p = .ok 1 ∧ snd p = .ok 2 ∧
      ∀ a2 b2, a2 < 20 → b2 < 20 → evalPRF pair [a2, b2] = .ok p →
        a2 = 1 ∧ b2 = 2 :=
  claim8_cantor_roundtrip 1 2 (by decide) (by decide)

/-- C10: the nullary generator `Zero` rejects any argument with an
arity error instead of returning 0, and the unary generator `Succ`
rejects both an empty and an over-long argument tuple with an arity
error instead of returning a number (Python raises TypeError for a
mismatched positional-argument count). -/
theorem claim10_base_arity (args : List Nat) :
    (args ≠ [] → evalPRF .zero args = .error .typeError)
    ∧ (args.length ≠ 1 → evalPRF .succ args = .error .typeError) := by
  constructor
  · intro h
    cases args with
    | nil => exact absurd rfl h
    | cons a l => rw [evalPRF]
  · intro h
    cases args with
    | nil => simp [evalPRF]
    | cons a l =>
        cases l with
        | nil => simp at h
        | cons a2 l2 => simp [evalPRF]

/-- Witness for C10: `zero(5)`, `succ()` and `succ(1, 2)` all fail. -/
theorem claim10_base_arity_witness :
    evalPRF .zero [5] = .error .typeError ∧
    evalPRF .succ [] = .error .typeError ∧
    evalPRF .succ [1, 2] = .error .typeError :=
  ⟨(claim10_base_arity [5]).1 (by simp),
   (claim10_base_arity []).2 (by simp),
   (claim10_base_arity [1, 2]).2 (by simp)⟩

end Prf
